import Mathlib

/-!
Shallow embedding of the qtictactoe sources (src/tic_tac_toe.rs, src/q_matrix.rs).

Modelling conventions:
- `Piece`, `Player`, `GameResult`, `Board<N>` follow the Rust types; the board
  `[[Piece; N]; N]` becomes `Fin N → Fin N → Piece` (all accesses in scope are
  in-bounds, which `Fin` enforces).
- `f64` is modelled by `ℚ`: the claims under study concern which expression is
  stored and order comparisons on finite values, none of which depend on
  floating-point rounding.
- `FxHashMap` is modelled by an association list; iteration order is insertion
  order (the spec itself notes that tie-breaking in `max_action_for_state` is
  iteration-order dependent).
- A Rust panic (failed `assert!`, `expect` on overflow, out-of-bounds index) is
  modelled by `Option`, with `none` for the panic. `get_winner` indexes rows
  and columns 0, 1, 2 unconditionally, so it is embedded under the hypothesis
  `3 ≤ N` that makes those accesses in-bounds.
-/

namespace QTic

inductive Piece where
  | Empty : Piece
  | X : Piece
  | O : Piece
deriving DecidableEq, Repr

/-- Numeric value of a cell, as in the Rust `Piece as i8` cast:
Empty = 0, X = 1, O = -1. -/
def Piece.val : Piece → ℤ
  | .Empty => 0
  | .X => 1
  | .O => -1

inductive Player where
  | X : Player
  | O : Player
deriving DecidableEq, Repr

/-- The mark a player writes into a cell (`make_move`'s match on `player`). -/
def Player.piece : Player → Piece
  | .X => Piece.X
  | .O => Piece.O

inductive GameResult where
  | XWon : GameResult
  | OWon : GameResult
  | Tie : GameResult
deriving DecidableEq, Repr

/-- `get_winner`'s translation of a winning `Player` into a `GameResult`. -/
def Player.result : Player → GameResult
  | .X => GameResult.XWon
  | .O => GameResult.OWon

abbrev Board (N : ℕ) := Fin N → Fin N → Piece

/-- `Board::new`: the all-Empty board. -/
def Board.new (N : ℕ) : Board N := fun _ _ => Piece.Empty

/-- Sum of the numeric cell values of row `i`
(`self.board[row_num].iter().map(|p| *p as i8).sum()`). -/
def Board.row_sum {N : ℕ} (b : Board N) (i : Fin N) : ℤ :=
  ((List.finRange N).map fun j => (b i j).val).sum

/-- `Board::row_winner`: the row sum is compared with the literals 3 and -3. -/
def Board.row_winner {N : ℕ} (b : Board N) (i : Fin N) : Option Player :=
  if Board.row_sum b i = 3 then some Player.X
  else if Board.row_sum b i = -3 then some Player.O
  else none

/-- Sum of the numeric cell values of column `j` (`get_col` then sum). -/
def Board.col_sum {N : ℕ} (b : Board N) (j : Fin N) : ℤ :=
  ((List.finRange N).map fun i => (b i j).val).sum

/-- `Board::col_winner`: the column sum is compared with the literals 3 and -3. -/
def Board.col_winner {N : ℕ} (b : Board N) (j : Fin N) : Option Player :=
  if Board.col_sum b j = 3 then some Player.X
  else if Board.col_sum b j = -3 then some Player.O
  else none

/-- Sum over the top-left to bottom-right diagonal (`get_lr_diag`). -/
def Board.lr_diag_sum {N : ℕ} (b : Board N) : ℤ :=
  ((List.finRange N).map fun i => (b i i).val).sum

/-- Sum over the top-right to bottom-left diagonal (`get_rl_diag`,
`self.board[idx][last_idx - idx]`). -/
def Board.rl_diag_sum {N : ℕ} (b : Board N) : ℤ :=
  ((List.finRange N).map fun i => (b i i.rev).val).sum

/-- `Board::diagonal_winner`: both diagonal sums compared with 3 and -3,
left-right diagonal first. -/
def Board.diagonal_winner {N : ℕ} (b : Board N) : Option Player :=
  if Board.lr_diag_sum b = 3 then some Player.X
  else if Board.lr_diag_sum b = -3 then some Player.O
  else if Board.rl_diag_sum b = 3 then some Player.X
  else if Board.rl_diag_sum b = -3 then some Player.O
  else none

/-- `Board::get_winner`: checks rows 0,1,2, then columns 0,1,2 (the Rust loops
run over the literal range `0..3`, not `0..N`), then the diagonals, returning
the first winner found. The hypothesis `3 ≤ N` makes those fixed indices
in-bounds, as required for the Rust code not to panic. -/
def Board.get_winner {N : ℕ} (hN : 3 ≤ N) (b : Board N) : Option GameResult :=
  match [Board.row_winner b ⟨0, by omega⟩, Board.row_winner b ⟨1, by omega⟩,
         Board.row_winner b ⟨2, by omega⟩,
         Board.col_winner b ⟨0, by omega⟩, Board.col_winner b ⟨1, by omega⟩,
         Board.col_winner b ⟨2, by omega⟩,
         Board.diagonal_winner b].findSome? id with
  | some p => some p.result
  | none => none

/-- `Board::is_ended`: true when no cell is Empty. -/
def Board.is_ended {N : ℕ} (b : Board N) : Bool :=
  !((List.finRange N).any fun i =>
      (List.finRange N).any fun j => decide (b i j = Piece.Empty))

/-- `Board::get_empty_spots`: the coordinates of the Empty cells, pushed in
row-major loop order. -/
def Board.get_empty_spots {N : ℕ} (b : Board N) : List (Fin N × Fin N) :=
  ((List.finRange N).map fun i =>
    ((List.finRange N).filter fun j => decide (b i j = Piece.Empty)).map
      fun j => (i, j)).flatten

/-- Writing one cell of the board (`self.board[row_num][col_num] = ...`). -/
def Board.set {N : ℕ} (b : Board N) (r c : Fin N) (p : Piece) : Board N :=
  fun i j => if i = r ∧ j = c then p else b i j

/-- The terminal-status evaluation at the end of `Board::make_move`: the winner
if there is one, else Tie if the board is full, else no result. -/
def Board.move_status {N : ℕ} (hN : 3 ≤ N) (b : Board N) : Option GameResult :=
  match Board.get_winner hN b with
  | some w => some w
  | none => if Board.is_ended b then some GameResult.Tie else none

/-- `Board::make_move`: asserts the target cell is Empty (`none` models the
panic of a failed assertion), writes the player's mark, and returns the
terminal status together with the updated board. -/
def Board.make_move {N : ℕ} (hN : 3 ≤ N) (b : Board N) (p : Player)
    (r c : Fin N) : Option (Option GameResult × Board N) :=
  if b r c = Piece.Empty then
    some (Board.move_status hN (Board.set b r c p.piece),
      Board.set b r c p.piece)
  else none

/-- Association-list lookup, modelling `HashMap::get`. -/
def alookup {α β : Type} [DecidableEq α] : List (α × β) → α → Option β
  | [], _ => none
  | (k, v) :: rest, a => if k = a then some v else alookup rest a

/-- Association-list insert, modelling `HashMap::insert` / `get_mut` writes:
replaces the value in place if the key is present, otherwise appends. -/
def ainsert {α β : Type} [DecidableEq α] : List (α × β) → α → β → List (α × β)
  | [], a, v => [(a, v)]
  | (k, w) :: rest, a, v =>
    if k = a then (a, v) :: rest else (k, w) :: ainsert rest a v

/-- `Q<N>`: learning rate, discount factor, and the nested table from boards
to per-action value estimates. -/
structure Q (N : ℕ) where
  alpha : ℚ
  discount : ℚ
  values : List (Board N × List ((ℕ × ℕ) × ℚ))

/-- `Q::new`: alpha = 0.5, discount = 0.5, empty table. -/
def Q.new (N : ℕ) : Q N := ⟨1 / 2, 1 / 2, []⟩

/-- `Q::get`: flat read with default 0.0 for missing entries. -/
def Q.get {N : ℕ} (q : Q N) (s : Board N) (a : ℕ × ℕ) : ℚ :=
  match alookup q.values s with
  | none => 0
  | some action_map =>
    match alookup action_map a with
    | none => 0
    | some v => v

/-- One step of the fold in `Q::max_action_for_state`:
`if accum.1 >= *item.1 { accum } else { (Some(*item.0), *item.1) }`. -/
def maxStep (accum : Option (ℕ × ℕ) × ℚ) (item : (ℕ × ℕ) × ℚ) :
    Option (ℕ × ℕ) × ℚ :=
  if accum.2 ≥ item.2 then accum else (some item.1, item.2)

/-- `Q::max_action_for_state`: folds the recorded actions of the state from
the accumulator `(None, 0.0)`; `(None, 0.0)` for an unexplored state. -/
def Q.max_action_for_state {N : ℕ} (q : Q N) (s : Board N) :
    Option (ℕ × ℕ) × ℚ :=
  match alookup q.values s with
  | some action_map => action_map.foldl maxStep (none, 0)
  | none => (none, 0)

/-- `Q::update`: computes the TD value, then writes it only when the
(state, action) entry already exists; when the state or the action is missing
it creates the entry with the value 0.0 instead (as the Rust comments state:
"create an entry for this state and action with reward of 0"). -/
def Q.update {N : ℕ} (q : Q N) (s : Board N) (a : ℕ × ℕ) (s2 : Board N)
    (r : ℚ) : Q N :=
  let value := q.get s a
  let next_q := (q.max_action_for_state s2).2
  let value2 := value + q.alpha * (r + q.discount * next_q - value)
  match alookup q.values s with
  | none => { q with values := ainsert q.values s [(a, 0)] }
  | some action_map =>
    match alookup action_map a with
    | none => { q with values := ainsert q.values s (ainsert action_map a 0) }
    | some _ =>
      { q with values := ainsert q.values s (ainsert action_map a value2) }

/-- Whether the table already holds an entry for this (state, action) pair. -/
def Q.has_entry {N : ℕ} (q : Q N) (s : Board N) (a : ℕ × ℕ) : Bool :=
  match alookup q.values s with
  | none => false
  | some action_map => (alookup action_map a).isSome

/-- `usize::MAX` on the 64-bit targets the crate builds for. -/
def usizeMax : ℕ := 2 ^ 64 - 1

/-- `checked_pow` on `usize`: the power if it is representable, else `none`. -/
def checkedPow (b e : ℕ) : Option ℕ :=
  if b ^ e ≤ usizeMax then some (b ^ e) else none

/-- `Q::possible_minus_explored`: `3^(N^2) - |explored states|`; `none` models
the `expect` panic when `3^(N^2)` overflows `usize`. -/
def Q.possible_minus_explored {N : ℕ} (q : Q N) : Option ℕ :=
  match checkedPow 3 (N ^ 2) with
  | none => none
  | some p => some (p - q.values.length)

/-- The row-major list of all coordinates of an N×N board. -/
def allCoords (N : ℕ) : List (Fin N × Fin N) :=
  ((List.finRange N).map fun i => (List.finRange N).map fun j => (i, j)).flatten

/-- Row-major order on coordinates: row ascending, then column ascending. -/
def rowMajorLt {N : ℕ} (p q : Fin N × Fin N) : Prop :=
  p.1 < q.1 ∨ (p.1 = q.1 ∧ p.2 < q.2)

/-- In-bounds proof for the board sizes 3 and 4 used in concrete instances. -/
def h3 : (3 : ℕ) ≤ 3 := by norm_num

/-- In-bounds proof for board size 4. -/
def h4 : (3 : ℕ) ≤ 4 := by norm_num

/-- A table whose only state holds a single action with value 2. -/
def qTwo : Q 3 := ⟨1 / 2, 1 / 2, [(Board.new 3, [((0, 0), 2)])]⟩

/-- A table whose only state holds a single action with negative value. -/
def qNeg : Q 3 := ⟨1 / 2, 1 / 2, [(Board.new 3, [((0, 0), -1)])]⟩

/-- A table whose only state holds a single action with value 5. -/
def qPos : Q 3 := ⟨1 / 2, 1 / 2, [(Board.new 3, [((0, 0), 5)])]⟩

/-- A 4×4 board whose last row is fully occupied by X, all other cells Empty. -/
def b4row3 : Board 4 := fun i _ => if i = 3 then Piece.X else Piece.Empty

/-- A 4×4 board whose first row is X, X, X, Empty and all other cells Empty. -/
def b4threeX : Board 4 := fun i j =>
  if i = 0 ∧ ¬j = 3 then Piece.X else Piece.Empty

/-- Successive boards of the 4×4 game X(0,0), O(1,0), X(0,1), O(1,1), X(0,2). -/
def g4b1 : Board 4 := Board.set (Board.new 4) 0 0 Piece.X

/-- Board after the second move of that game. -/
def g4b2 : Board 4 := Board.set g4b1 1 0 Piece.O

/-- Board after the third move of that game. -/
def g4b3 : Board 4 := Board.set g4b2 0 1 Piece.X

/-- Board after the fourth move of that game. -/
def g4b4 : Board 4 := Board.set g4b3 1 1 Piece.O

/-- The empty 3×3 board after X plays (0,0). -/
def g3b1 : Board 3 := Board.set (Board.new 3) 0 0 Piece.X

/-! ### Helper lemmas -/

theorem alookup_ainsert_self {α β : Type} [DecidableEq α]
    (l : List (α × β)) (k : α) (v : β) : alookup (ainsert l k v) k = some v := by
  induction l with
  | nil => simp [ainsert, alookup]
  | cons x rest ih =>
    by_cases h : x.1 = k
    · simp [ainsert, h, alookup]
    · simp [ainsert, h, alookup, ih]

theorem foldl_maxStep_snd_le (l : List ((ℕ × ℕ) × ℚ)) :
    ∀ accum, accum.2 ≤ (l.foldl maxStep accum).2 := by
  induction l with
  | nil => intro accum; simp
  | cons x t ih =>
    intro accum
    rw [List.foldl_cons]
    refine le_trans ?_ (ih (maxStep accum x))
    unfold maxStep
    split
    · exact le_refl _
    · next h => exact le_of_lt (lt_of_not_ge h)

theorem foldl_maxStep_mem_le (l : List ((ℕ × ℕ) × ℚ)) :
    ∀ accum x, x ∈ l → x.2 ≤ (l.foldl maxStep accum).2 := by
  induction l with
  | nil => intro _ x hx; simp at hx
  | cons y t ih =>
    intro accum x hx
    rw [List.foldl_cons]
    rcases List.mem_cons.mp hx with h | h
    · subst h
      refine le_trans ?_ (foldl_maxStep_snd_le t (maxStep accum x))
      unfold maxStep
      split
      · next hge => exact hge
      · exact le_refl _
    · exact ih (maxStep accum y) x h

theorem foldl_maxStep_cases (l : List ((ℕ × ℕ) × ℚ)) :
    ∀ accum, l.foldl maxStep accum = accum
      ∨ ∃ x ∈ l, l.foldl maxStep accum = (some x.1, x.2) := by
  induction l with
  | nil => intro accum; left; rfl
  | cons y t ih =>
    intro accum
    rw [List.foldl_cons]
    rcases ih (maxStep accum y) with h | ⟨x, hx, h⟩
    · rw [h]
      unfold maxStep
      split
      · left; rfl
      · right; exact ⟨y, List.mem_cons_self y t, rfl⟩
    · right; exact ⟨x, List.mem_cons_of_mem y hx, h⟩

theorem foldl_maxStep_fixed (l : List ((ℕ × ℕ) × ℚ)) :
    ∀ accum, (∀ x ∈ l, x.2 ≤ accum.2) → l.foldl maxStep accum = accum := by
  induction l with
  | nil => intro accum _; rfl
  | cons y t ih =>
    intro accum h
    rw [List.foldl_cons]
    have hy : maxStep accum y = accum := by
      unfold maxStep
      rw [if_pos (h y (List.mem_cons_self y t))]
    rw [hy]
    exact ih accum fun x hx => h x (List.mem_cons_of_mem y hx)

theorem is_ended_iff {N : ℕ} (b : Board N) :
    Board.is_ended b = true ↔ ∀ i j, b i j ≠ Piece.Empty := by
  unfold Board.is_ended
  simp [List.any_eq_true, List.mem_finRange]

theorem get_empty_spots_eq_filter {N : ℕ} (b : Board N) :
    Board.get_empty_spots b =
      (allCoords N).filter fun x => decide (b x.1 x.2 = Piece.Empty) := by
  unfold Board.get_empty_spots allCoords
  rw [List.filter_flatten, List.map_map]
  refine congrArg List.flatten (List.map_congr_left fun i _ => ?_)
  rw [Function.comp_apply, List.filter_map]
  rfl

theorem mem_allCoords {N : ℕ} (x : Fin N × Fin N) : x ∈ allCoords N := by
  unfold allCoords
  rw [List.mem_flatten]
  refine ⟨(List.finRange N).map fun j => (x.1, j), ?_, ?_⟩
  · exact List.mem_map_of_mem _ (List.mem_finRange x.1)
  · rw [List.mem_map]
    exact ⟨x.2, List.mem_finRange x.2, rfl⟩

theorem allCoords_pairwise (N : ℕ) : (allCoords N).Pairwise rowMajorLt := by
  unfold allCoords
  rw [List.pairwise_flatten]
  constructor
  · intro l hl
    simp only [List.mem_map] at hl
    obtain ⟨i, _, rfl⟩ := hl
    rw [List.pairwise_map]
    exact (List.pairwise_lt_finRange N).imp fun h => Or.inr ⟨rfl, h⟩
  · rw [List.pairwise_map]
    refine (List.pairwise_lt_finRange N).imp ?_
    intro i1 i2 h x hx y hy
    simp only [List.mem_map] at hx hy
    obtain ⟨j1, _, rfl⟩ := hx
    obtain ⟨j2, _, rfl⟩ := hy
    exact Or.inl h

theorem rowMajorLt_ne {N : ℕ} {x y : Fin N × Fin N} (h : rowMajorLt x y) :
    x ≠ y := by
  rintro rfl
  rcases h with h | ⟨_, h⟩ <;> exact lt_irrefl _ h

theorem allCoords_nodup (N : ℕ) : (allCoords N).Nodup :=
  (allCoords_pairwise N).imp rowMajorLt_ne

theorem length_filter_update {α : Type} [DecidableEq α] :
    ∀ (l : List α) (p q : α → Bool) (x : α),
      (∀ y ∈ l, y ≠ x → p y = q y) → p x = true → q x = false →
      l.count x = 1 → (l.filter q).length + 1 = (l.filter p).length := by
  intro l
  induction l with
  | nil =>
    intro p q x _ _ _ hc
    simp at hc
  | cons a t ih =>
    intro p q x hagree hp hq hc
    by_cases hax : a = x
    · subst hax
      have hct : t.count a = 0 := by
        have h1 := List.count_cons_self a t
        omega
      have hnot : a ∉ t := by
        intro hmem
        have := List.count_pos_iff.mpr hmem
        omega
      have hfeq : t.filter q = t.filter p := by
        refine List.filter_congr fun y hy => ?_
        have hya : y ≠ a := fun h => hnot (h ▸ hy)
        exact (hagree y (List.mem_cons_of_mem a hy) hya).symm
      rw [List.filter_cons, List.filter_cons, hp, hq]
      simp [hfeq]
    · have hpa : p a = q a := hagree a (List.mem_cons_self a t) hax
      have hct : t.count x = 1 := by
        have h1 := List.count_cons x a t
        rw [h1] at hc
        simpa [hax] using hc
      have ihh := ih p q x
        (fun y hy hyx => hagree y (List.mem_cons_of_mem a hy) hyx) hp hq hct
      rw [List.filter_cons, List.filter_cons, ← hpa]
      cases hqa : p a
      · simpa using ihh
      · simpa using ihh

/-! ### Claims about the board engine -/

/-- Claim C3, code evaluated at the failing input: on the 4×4 board whose last
row is fully occupied by X, `get_winner` returns None, because the Rust loops
check only rows and columns 0..3 (a hard-coded literal, not 0..N) and compare
line sums with ±3 rather than ±N. -/
theorem c3_get_winner_misses_line :
    b4row3 3 0 = Piece.X ∧ b4row3 3 1 = Piece.X ∧ b4row3 3 2 = Piece.X
    ∧ b4row3 3 3 = Piece.X
    ∧ Board.get_winner h4 b4row3 = none := by
  decide

/-- Claim C4, code evaluated at the failing input: on a 4×4 board whose first
row is X, X, X, Empty the row sum is 3, and `row_winner` reports X as the
winner even though the sum is not +N = +4 and the line is not full; the
comparison threshold is the literal 3, not N. -/
theorem c4_row_winner_wrong_threshold :
    b4threeX 0 3 = Piece.Empty
    ∧ Board.row_sum b4threeX 0 = 3
    ∧ (3 : ℤ) ≠ (4 : ℤ)
    ∧ Board.row_winner b4threeX 0 = some Player.X := by
  decide

/-- Claim C6, code evaluated at the failing input: in the 4×4 game
X(0,0), O(1,0), X(0,1), O(1,1), X(0,2) of legal alternating moves from the
empty board, the fifth call to `make_move` already returns XWon, although
5 < 2·4 − 1 = 7; the first row holds only three X marks but `row_winner`
compares the sum with the literal 3. -/
theorem c6_early_win_before_bound :
    Board.make_move h4 (Board.new 4) Player.X 0 0 = some (none, g4b1)
    ∧ Board.make_move h4 g4b1 Player.O 1 0 = some (none, g4b2)
    ∧ Board.make_move h4 g4b2 Player.X 0 1 = some (none, g4b3)
    ∧ Board.make_move h4 g4b3 Player.O 1 1 = some (none, g4b4)
    ∧ Board.make_move h4 g4b4 Player.X 0 2 =
        some (some GameResult.XWon, Board.set g4b4 0 2 Piece.X)
    ∧ 5 < 2 * 4 - 1 := by
  refine ⟨?_, ?_, ?_, ?_, ?_, ?_⟩ <;> decide

/-- Claim C10: `is_ended` is true exactly when `get_empty_spots` returns the
empty sequence; the two tie-detection mechanisms agree on every board. -/
theorem c10_is_ended_iff_empty_spots_nil {N : ℕ} (b : Board N) :
    Board.is_ended b = true ↔ Board.get_empty_spots b = [] := by
  rw [is_ended_iff, get_empty_spots_eq_filter, List.filter_eq_nil_iff]
  constructor
  · intro h x _
    simpa using h x.1 x.2
  · intro h i j
    simpa using h (i, j) (mem_allCoords _)

/-- Claim C5: on an Empty in-range cell, `make_move` writes the player's mark
into that cell (leaving every other cell unchanged) and returns the terminal
status of the resulting board: the winner reported by `get_winner` when there
is one, Tie when there is no winner and no Empty cell remains, and nothing
otherwise; calling it on an occupied cell is the modelled fatal assertion
failure. -/
theorem c5_make_move_spec {N : ℕ} (hN : 3 ≤ N) (b : Board N) (pl : Player)
    (r c : Fin N) :
    (b r c = Piece.Empty →
      Board.make_move hN b pl r c =
        some (Board.move_status hN (Board.set b r c pl.piece),
          Board.set b r c pl.piece)
      ∧ Board.set b r c pl.piece r c = pl.piece
      ∧ ∀ i j, ¬(i = r ∧ j = c) → Board.set b r c pl.piece i j = b i j)
    ∧ (b r c ≠ Piece.Empty → Board.make_move hN b pl r c = none)
    ∧ (∀ b2 : Board N, (Board.get_winner hN b2).isSome = true →
        Board.move_status hN b2 = Board.get_winner hN b2)
    ∧ (∀ b2 : Board N, Board.get_winner hN b2 = none →
        (Board.move_status hN b2 = some GameResult.Tie ↔
          ∀ i j, b2 i j ≠ Piece.Empty))
    ∧ (∀ b2 : Board N, Board.get_winner hN b2 = none →
        (Board.move_status hN b2 = none ↔ ∃ i j, b2 i j = Piece.Empty)) := by
  refine ⟨?_, ?_, ?_, ?_, ?_⟩
  · intro h
    refine ⟨?_, ?_, ?_⟩
    · unfold Board.make_move
      rw [if_pos h]
    · unfold Board.set
      simp
    · intro i j hij
      unfold Board.set
      rw [if_neg hij]
  · intro h
    unfold Board.make_move
    rw [if_neg h]
  · intro b2 hw
    unfold Board.move_status
    cases hg : Board.get_winner hN b2 with
    | none => rw [hg] at hw; simp at hw
    | some w => rfl
  · intro b2 hg
    unfold Board.move_status
    rw [hg]
    constructor
    · intro h
      by_cases he : Board.is_ended b2 = true
      · exact (is_ended_iff b2).mp he
      · rw [if_neg he] at h
        exact absurd h (by simp)
    · intro h
      rw [if_pos ((is_ended_iff b2).mpr h)]
  · intro b2 hg
    unfold Board.move_status
    rw [hg]
    constructor
    · intro h
      by_cases he : Board.is_ended b2 = true
      · rw [if_pos he] at h
        exact absurd h (by simp)
      · have h2 : ¬∀ i j, b2 i j ≠ Piece.Empty :=
          fun hall => he ((is_ended_iff b2).mpr hall)
        push_neg at h2
        exact h2
    · intro ⟨i, j, hij⟩
      have hne : ¬Board.is_ended b2 = true :=
        fun htrue => (is_ended_iff b2).mp htrue i j hij
      rw [if_neg hne]

/-- Claim C5, witness: the first move of a 3×3 game, applied through the
theorem. -/
theorem c5_make_move_spec_witness :
    (Board.new 3) 0 0 = Piece.Empty
    ∧ Board.make_move h3 (Board.new 3) Player.X 0 0 =
        some (Board.move_status h3
          (Board.set (Board.new 3) 0 0 Player.X.piece),
          Board.set (Board.new 3) 0 0 Player.X.piece) :=
  ⟨rfl, ((c5_make_move_spec h3 (Board.new 3) Player.X 0 0).1 rfl).1⟩

/-- Claim C7: `get_empty_spots` contains exactly the coordinates of the Empty
cells, in strictly increasing row-major order, and its length decreases by
exactly one across every successful `make_move` call. -/
theorem c7_get_empty_spots_spec {N : ℕ} (b : Board N) :
    (∀ x : Fin N × Fin N, x ∈ Board.get_empty_spots b ↔
      b x.1 x.2 = Piece.Empty)
    ∧ (Board.get_empty_spots b).Pairwise rowMajorLt
    ∧ ∀ (hN : 3 ≤ N) (pl : Player) (r c : Fin N) res b2,
        Board.make_move hN b pl r c = some (res, b2) →
        (Board.get_empty_spots b2).length + 1 =
          (Board.get_empty_spots b).length := by
  refine ⟨?_, ?_, ?_⟩
  · intro x
    rw [get_empty_spots_eq_filter]
    simp [List.mem_filter, mem_allCoords]
  · rw [get_empty_spots_eq_filter]
    exact List.Pairwise.sublist (List.filter_sublist _) (allCoords_pairwise N)
  · intro hN pl r c res b2 hmove
    unfold Board.make_move at hmove
    by_cases h : b r c = Piece.Empty
    · rw [if_pos h] at hmove
      have hb2 : b2 = Board.set b r c pl.piece := by
        have := congrArg (Option.map Prod.snd) hmove
        simpa using this.symm
      subst hb2
      rw [get_empty_spots_eq_filter, get_empty_spots_eq_filter]
      refine length_filter_update (allCoords N) _ _ (r, c) ?_ ?_ ?_ ?_
      · intro y _ hyx
        have hne : ¬(y.1 = r ∧ y.2 = c) := by
          intro ⟨h1, h2⟩
          exact hyx (Prod.ext h1 h2)
        unfold Board.set
        rw [if_neg hne]
      · simpa using h
      · unfold Board.set
        simp only [and_self, if_pos]
        cases pl <;> simp [Player.piece]
      · exact List.count_eq_one_of_mem (allCoords_nodup N) (mem_allCoords _)
    · rw [if_neg h] at hmove
      exact absurd hmove (by simp)

/-- Claim C7, witness: after X's first move on the empty 3×3 board the number
of empty spots drops from 9 to 8. -/
theorem c7_get_empty_spots_spec_witness :
    (Board.get_empty_spots g3b1).length + 1 =
      (Board.get_empty_spots (Board.new 3)).length := by
  refine (c7_get_empty_spots_spec (Board.new 3)).2.2 h3 Player.X 0 0
    (Board.move_status h3 g3b1) g3b1 ?_
  decide

/-! ### Claims about the Q-table -/

/-- Claim C1, counterexample: on a fresh table, `update` with reward 1 stores
0.0 for the new (state, action) entry, while the TD formula of the claim
computes 1/2; so `get` after `update` does not equal the TD-updated value when
the entry did not exist before the call. -/
theorem c1_fresh_entry_counterexample :
    (Q.update (Q.new 3) (Board.new 3) (0, 0) (Board.new 3) 1).get
        (Board.new 3) (0, 0) = 0
    ∧ (Q.new 3).get (Board.new 3) (0, 0)
        + (1 / 2) * (1 + (1 / 2) *
            (Q.max_action_for_state (Q.new 3) (Board.new 3)).2
          - (Q.new 3).get (Board.new 3) (0, 0)) ≠ 0 := by
  constructor
  · decide
  · simp only [Q.get, Q.new, Q.max_action_for_state, alookup]
    norm_num

/-- Claim C1 as amended: after `update(s, a, s2, r)` on a table with
alpha = discount = 0.5, `get(s, a)` equals
`old + 0.5 * (r + 0.5 * next_max_q - old)` when an entry for (s, a) already
existed; when no entry existed, the entry is created holding 0.0, so
`get(s, a)` returns 0.0. -/
theorem c1_update_get_amended {N : ℕ} (q : Q N) (s : Board N) (a : ℕ × ℕ)
    (s2 : Board N) (r : ℚ) (ha : q.alpha = 1 / 2) (hd : q.discount = 1 / 2) :
    (q.update s a s2 r).get s a =
      if q.has_entry s a then
        q.get s a + (1 / 2) * (r + (1 / 2) *
          (q.max_action_for_state s2).2 - q.get s a)
      else 0 := by
  cases h1 : alookup q.values s with
  | none =>
    have hh : q.has_entry s a = false := by simp [Q.has_entry, h1]
    have hupd : q.update s a s2 r =
        ⟨q.alpha, q.discount, ainsert q.values s [(a, 0)]⟩ := by
      unfold Q.update
      simp only [h1]
    rw [hh]
    simp only [Bool.false_eq_true, if_false]
    rw [hupd]
    unfold Q.get
    simp only [alookup_ainsert_self]
    simp [alookup]
  | some am =>
    cases h2 : alookup am a with
    | none =>
      have hh : q.has_entry s a = false := by simp [Q.has_entry, h1, h2]
      have hupd : q.update s a s2 r =
          ⟨q.alpha, q.discount, ainsert q.values s (ainsert am a 0)⟩ := by
        unfold Q.update
        simp only [h1, h2]
      rw [hh]
      simp only [Bool.false_eq_true, if_false]
      rw [hupd]
      unfold Q.get
      simp only [alookup_ainsert_self]
    | some v =>
      have hh : q.has_entry s a = true := by simp [Q.has_entry, h1, h2]
      have hupd : q.update s a s2 r =
          ⟨q.alpha, q.discount, ainsert q.values s (ainsert am a
            (q.get s a + q.alpha * (r + q.discount *
              (q.max_action_for_state s2).2 - q.get s a)))⟩ := by
        unfold Q.update
        simp only [h1, h2]
      rw [hh, if_pos rfl, hupd]
      unfold Q.get
      simp only [alookup_ainsert_self]
      rw [ha, hd]

/-- Claim C1, witness: the amended theorem applied to a table that already
holds value 2 for the pair being updated. -/
theorem c1_update_get_amended_witness :
    qTwo.alpha = 1 / 2 ∧ qTwo.discount = 1 / 2 ∧
    (qTwo.update (Board.new 3) (0, 0) (Board.new 3) 1).get (Board.new 3)
        (0, 0) =
      if qTwo.has_entry (Board.new 3) (0, 0) then
        qTwo.get (Board.new 3) (0, 0) + (1 / 2) * (1 + (1 / 2) *
          (qTwo.max_action_for_state (Board.new 3)).2
            - qTwo.get (Board.new 3) (0, 0))
      else 0 :=
  ⟨rfl, rfl,
    c1_update_get_amended qTwo (Board.new 3) (0, 0) (Board.new 3) 1 rfl rfl⟩

/-- Claim C2, counterexample: a state with one recorded action of value -1;
`max_action_for_state` returns (None, 0.0) instead of that action with its
stored value, so the claim fails for states whose recorded values are all
non-positive. -/
theorem c2_nonpositive_counterexample :
    alookup qNeg.values (Board.new 3) = some [((0, 0), (-1 : ℚ))]
    ∧ (Q.max_action_for_state qNeg (Board.new 3)).1 = none
    ∧ Q.max_action_for_state qNeg (Board.new 3) ≠ (some (0, 0), -1) := by
  refine ⟨by decide, by decide, by decide⟩

/-- Claim C2 as amended: for an unexplored state the result is (None, 0.0);
for a state with a recorded action of strictly positive value, the result
names a recorded action whose stored value is greatest among all recorded
values (the returned pair is itself a recorded entry). States whose recorded
values are all non-positive fall outside the Some-branch (see the
counterexample). -/
theorem c2_max_action_amended {N : ℕ} (q : Q N) (s : Board N) :
    (alookup q.values s = none → q.max_action_for_state s = (none, 0))
    ∧ ∀ am, alookup q.values s = some am → (∃ x ∈ am, 0 < x.2) →
        (q.max_action_for_state s).1 ≠ none
        ∧ (∀ x ∈ am, x.2 ≤ (q.max_action_for_state s).2)
        ∧ ∀ a, (q.max_action_for_state s).1 = some a →
            (a, (q.max_action_for_state s).2) ∈ am := by
  constructor
  · intro h
    unfold Q.max_action_for_state
    rw [h]
  · intro am ham hpos
    have hres : q.max_action_for_state s = am.foldl maxStep (none, 0) := by
      unfold Q.max_action_for_state
      rw [ham]
    obtain ⟨x0, hx0, hx0pos⟩ := hpos
    have hge : ∀ x ∈ am, x.2 ≤ (am.foldl maxStep (none, 0)).2 :=
      fun x hx => foldl_maxStep_mem_le am (none, 0) x hx
    have hpos2 : 0 < (am.foldl maxStep (none, 0)).2 :=
      lt_of_lt_of_le hx0pos (hge x0 hx0)
    rcases foldl_maxStep_cases am (none, 0) with hc | ⟨x, hx, hc⟩
    · rw [hc] at hpos2
      exact absurd hpos2 (by norm_num)
    · rw [hres, hc]
      refine ⟨by simp, fun x' hx' => by simpa [hc] using hge x' hx', ?_⟩
      intro a ha2
      simp only [Option.some.injEq] at ha2
      subst ha2
      simpa using hx

/-- Claim C2, witness: the amended theorem applied to a table holding one
positive-valued action for the empty board. -/
theorem c2_max_action_amended_witness :
    alookup qPos.values (Board.new 3) = some [((0, 0), (5 : ℚ))]
    ∧ (Q.max_action_for_state qPos (Board.new 3)).1 ≠ none
    ∧ ((0, 0), (5 : ℚ)).2 ≤ (Q.max_action_for_state qPos (Board.new 3)).2 := by
  have h := (c2_max_action_amended qPos (Board.new 3)).2 [((0, 0), (5 : ℚ))]
    (by decide) ⟨((0, 0), 5), by simp, by norm_num⟩
  exact ⟨by decide, h.1, h.2.1 _ (by simp)⟩

/-- Claim C8: `possible_minus_explored` returns `3 ^ (N ^ 2)` minus the number
of explored states when that power fits in `usize`, and fails (the modelled
`expect` panic) when it exceeds `usize::MAX`. -/
theorem c8_possible_minus_explored_spec {N : ℕ} (q : Q N) :
    (3 ^ (N ^ 2) ≤ usizeMax →
      q.possible_minus_explored = some (3 ^ (N ^ 2) - q.values.length))
    ∧ (usizeMax < 3 ^ (N ^ 2) → q.possible_minus_explored = none) := by
  constructor <;> intro h <;> unfold Q.possible_minus_explored checkedPow
  · rw [if_pos h]
  · rw [if_neg (by omega)]

/-- Claim C8, witness: the representable case at N = 3 and the overflow case
at N = 7 (3 ^ 49 exceeds `usize::MAX`). -/
theorem c8_possible_minus_explored_witness :
    (3 ^ (3 ^ 2) ≤ usizeMax
      ∧ (Q.new 3).possible_minus_explored =
          some (3 ^ (3 ^ 2) - (Q.new 3).values.length))
    ∧ usizeMax < 3 ^ (7 ^ 2)
    ∧ (Q.new 7).possible_minus_explored = none := by
  have hsmall : 3 ^ (3 ^ 2) ≤ usizeMax := by norm_num [usizeMax]
  have hbig : usizeMax < 3 ^ (7 ^ 2) := by norm_num [usizeMax]
  exact ⟨⟨hsmall, (c8_possible_minus_explored_spec (Q.new 3)).1 hsmall⟩,
    hbig, (c8_possible_minus_explored_spec (Q.new 7)).2 hbig⟩

/-- Claim C9: the value component returned by `max_action_for_state` is never
negative, and when every recorded value for the state is non-positive the
result is (None, 0.0) even though the state has recorded actions. -/
theorem c9_max_action_nonneg {N : ℕ} (q : Q N) (s : Board N) :
    0 ≤ (q.max_action_for_state s).2
    ∧ ∀ am, alookup q.values s = some am → (∀ x ∈ am, x.2 ≤ 0) →
        q.max_action_for_state s = (none, 0) := by
  constructor
  · unfold Q.max_action_for_state
    cases h : alookup q.values s with
    | none => simp
    | some am => simpa using foldl_maxStep_snd_le am (none, 0)
  · intro am ham hle
    unfold Q.max_action_for_state
    rw [ham]
    exact foldl_maxStep_fixed am (none, 0) (by simpa using hle)

/-- Claim C9, witness: the table holding a single action with value -1 for
the empty board yields (None, 0.0). -/
theorem c9_max_action_nonneg_witness :
    alookup qNeg.values (Board.new 3) = some [((0, 0), (-1 : ℚ))]
    ∧ Q.max_action_for_state qNeg (Board.new 3) = (none, 0) := by
  refine ⟨by decide, (c9_max_action_nonneg qNeg (Board.new 3)).2
    [((0, 0), (-1 : ℚ))] (by decide) ?_⟩
  intro x hx
  simp only [List.mem_singleton] at hx
  subst hx
  norm_num

end QTic
